import Mathlib

/-!
Verification of the lite-ledger storage core (packages `storage` and `engine`).

The embedding models:
 - a table's log file as the list of its text lines (`FileLines`); `AppendRow`
   writes one line per row, and both the scanner-based replay and `ReadRow`
   consume whole lines, so the list-of-lines view is exact for the newline-free
   fields the codec is documented to carry;
 - byte offsets as `Nat`, with a line occupying `utf8ByteSize + 1` bytes
   (content plus the terminating newline), exactly as both `AppendRow`
   (`stat.Size()`) and the replay loop (`len(line) + 1`) count them;
 - `strings.Split(line, "|")` and `strings.Join(parts, "|")` as character-level
   split and join (`splitPipe`, `joinPipe`);
 - the SHA-256 hex checksum as an abstract function `hash : String → String`;
   the facts proved ask only that its output is free of the delimiter and of
   newlines, which is true of hexadecimal output;
 - Go maps as association lists with lookup, overwrite and delete operations.
-/

/-- Predicate on strings produced by well-behaved callers: the string contains
neither the field delimiter nor a line terminator.  The spec documents this as
a constraint on fields that is not enforced by the code. -/
def CleanS (s : String) : Prop := ∀ c ∈ s.data, c ≠ '|' ∧ c ≠ '\n'

/-- Every field of the row is clean. -/
def CleanRow (r : List String) : Prop := ∀ s ∈ r, CleanS s

instance (s : String) : Decidable (CleanS s) := by
  unfold CleanS; infer_instance

instance (r : List String) : Decidable (CleanRow r) := by
  unfold CleanRow; infer_instance

/-- Character-level model of Go `strings.Split(s, "|")`. -/
def splitOnPipe : List Char → List (List Char)
  | [] => [[]]
  | c :: rest =>
    if c = '|' then [] :: splitOnPipe rest
    else
      match splitOnPipe rest with
      | [] => [[c]]
      | p :: ps => (c :: p) :: ps

/-- Character-level model of Go `strings.Join(parts, "|")`. -/
def joinPipeChars : List (List Char) → List Char
  | [] => []
  | [p] => p
  | p :: q :: rest => p ++ '|' :: joinPipeChars (q :: rest)

/-- Model of `strings.Split(line, "|")` on strings. -/
def splitPipe (s : String) : List String := (splitOnPipe s.data).map String.mk

/-- Model of `strings.Join(parts, "|")` on strings. -/
def joinPipe (parts : List String) : String :=
  String.mk (joinPipeChars (parts.map String.data))

theorem splitOnPipe_ne_nil (l : List Char) : splitOnPipe l ≠ [] := by
  induction l with
  | nil => simp [splitOnPipe]
  | cons c rest ih =>
    simp only [splitOnPipe]
    split
    · simp
    · cases h : splitOnPipe rest with
      | nil => simp
      | cons p ps => simp

theorem splitOnPipe_no_pipe {l : List Char} (h : '|' ∉ l) : splitOnPipe l = [l] := by
  induction l with
  | nil => rfl
  | cons c rest ih =>
    have hc : ¬ c = '|' := fun hcc => h (by simp [hcc])
    have hr : '|' ∉ rest := fun hm => h (List.mem_cons_of_mem _ hm)
    simp only [splitOnPipe, if_neg hc, ih hr]

theorem splitOnPipe_append {l : List Char} (rest : List Char) (h : '|' ∉ l) :
    splitOnPipe (l ++ '|' :: rest) = l :: splitOnPipe rest := by
  induction l with
  | nil => simp [splitOnPipe]
  | cons c t ih =>
    have hc : ¬ c = '|' := fun hcc => h (by simp [hcc])
    have ht : '|' ∉ t := fun hm => h (List.mem_cons_of_mem _ hm)
    simp only [List.cons_append, splitOnPipe, if_neg hc, List.append_eq, ih ht]

theorem splitOnPipe_join {parts : List (List Char)} (hne : parts ≠ [])
    (hcl : ∀ p ∈ parts, '|' ∉ p) :
    splitOnPipe (joinPipeChars parts) = parts := by
  induction parts with
  | nil => exact absurd rfl hne
  | cons p rest ih =>
    cases rest with
    | nil =>
      simp only [joinPipeChars]
      exact splitOnPipe_no_pipe (hcl p (by simp))
    | cons q rs =>
      simp only [joinPipeChars]
      rw [splitOnPipe_append _ (hcl p (by simp))]
      rw [ih (by simp) (fun x hx => hcl x (List.mem_cons_of_mem _ hx))]

theorem string_mk_data (s : String) : String.mk s.data = s := rfl

theorem data_string_mk (l : List Char) : (String.mk l).data = l := rfl

theorem no_pipe_of_cleanS {s : String} (h : CleanS s) : '|' ∉ s.data := by
  intro hmem
  exact (h _ hmem).1 rfl

/-- Splitting a pipe-joined list of clean fields recovers exactly the fields.
This is the key algebraic fact behind the row codec round trip. -/
theorem splitPipe_joinPipe {parts : List String} (hne : parts ≠ [])
    (hcl : ∀ p ∈ parts, CleanS p) : splitPipe (joinPipe parts) = parts := by
  unfold splitPipe joinPipe
  rw [data_string_mk]
  rw [splitOnPipe_join (by simpa using hne)
    (by
      intro p hp
      rcases List.mem_map.mp hp with ⟨q, hq, rfl⟩
      exact no_pipe_of_cleanS (hcl q hq))]
  rw [List.map_map]
  have : (String.mk ∘ String.data) = id := by
    funext x; rfl
  rw [this, List.map_id]

/-! ## Storage layer (`storage/storage.go`) -/

/-- A table's log file, as the list of its lines (each line stored without its
terminating newline, exactly as `bufio.Scanner` and `ReadString`+`TrimSuffix`
deliver it). -/
abbrev FileLines := List String

/-- Number of bytes a stored line occupies: content plus the newline.  Both
`AppendRow` (via `stat.Size()`) and the replay loop (via `len(line) + 1`)
count bytes this way. -/
def lineSize (l : String) : Nat := l.utf8ByteSize + 1

/-- Size in bytes of the whole file, i.e. the offset at which the next
appended line starts. -/
def fileSize (lines : FileLines) : Nat := (lines.map lineSize).sum

/-- Model of `calculateChecksum`: SHA-256 over the pipe-joined fields,
hex-encoded.  The hash itself is a parameter `hash`; every theorem that needs
it assumes only that hex output is clean (`CleanS`). -/
def calculateChecksum (hash : String → String) (data : List String) : String :=
  hash (joinPipe data)

/-- The line `AppendRow` writes for `data`: the fields, then the checksum,
pipe-joined (the newline terminator is implicit in the `FileLines` model). -/
def encodeLine (hash : String → String) (data : List String) : String :=
  joinPipe (data ++ [calculateChecksum hash data])

/-- Model of `storage.AppendRow`: computes the current end-of-file as the write
offset, appends the checksummed line, and returns the offset.  The source
auto-creates the directory and file; the model's caller passes `[]` for a
missing file accordingly. -/
def AppendRow (hash : String → String) (lines : FileLines) (data : List String) :
    Nat × FileLines :=
  (fileSize lines, lines ++ [encodeLine hash data])

/-- Reading one terminated line starting at byte `off`.  The source seeks to an
arbitrary byte and reads to the next newline; the model resolves reads at line
starts (the only offsets the engine's Index ever stores) and reports a read
failure otherwise, as the checksum verification would for a line suffix. -/
def readLineAt : FileLines → Nat → Except String String
  | [], _ => .error "failed to read line at offset"
  | l :: ls, off =>
    if off = 0 then .ok l
    else if off < lineSize l then .error "failed to read line at offset"
    else readLineAt ls (off - lineSize l)

/-- Model of `storage.ReadRow`: open the file (`none` = the file does not
exist), read one line at `offset`, split on the delimiter, verify the trailing
checksum and return the data fields without it. -/
def ReadRow (hash : String → String) (file : Option FileLines) (offset : Nat) :
    Except String (List String) :=
  match file with
  | none => .error "failed to open table file"
  | some lines =>
    match readLineAt lines offset with
    | .error e => .error e
    | .ok line =>
      let parts := splitPipe line
      if parts.length < 2 then .error "corrupt row: insufficient data"
      else
        let storedChecksum := parts.getLastD ""
        let dataParts := parts.dropLast
        if storedChecksum = calculateChecksum hash dataParts then .ok dataParts
        else .error "SECURITY ALERT: Row data has been tampered with!"

theorem readLineAt_append (xs ys : FileLines) (o : Nat) :
    readLineAt (xs ++ ys) (fileSize xs + o) = readLineAt ys o := by
  induction xs with
  | nil => simp [fileSize]
  | cons x rest ih =>
    have hsz : 1 ≤ lineSize x := Nat.le_add_left 1 _
    have hne : ¬ (fileSize (x :: rest) + o = 0) := by
      simp only [fileSize, List.map_cons, List.sum_cons]
      omega
    have hge : ¬ (fileSize (x :: rest) + o < lineSize x) := by
      simp only [fileSize, List.map_cons, List.sum_cons]
      omega
    simp only [List.cons_append, readLineAt, if_neg hne, if_neg hge, List.append_eq]
    have : fileSize (x :: rest) + o - lineSize x = fileSize rest + o := by
      simp only [fileSize, List.map_cons, List.sum_cons]
      omega
    rw [this, ih]

theorem readLineAt_fileSize (xs : FileLines) (l : String) (ys : FileLines) :
    readLineAt (xs ++ l :: ys) (fileSize xs) = .ok l := by
  have h := readLineAt_append xs (l :: ys) 0
  simpa [readLineAt] using h

/-- Splitting an encoded line recovers the data fields followed by the
checksum, for clean fields and a clean checksum. -/
theorem splitPipe_encodeLine {hash : String → String} {data : List String}
    (hcl : CleanRow data) (hcs : CleanS (calculateChecksum hash data)) :
    splitPipe (encodeLine hash data) = data ++ [calculateChecksum hash data] := by
  unfold encodeLine
  apply splitPipe_joinPipe (by simp)
  intro p hp
  rcases List.mem_append.mp hp with h | h
  · exact hcl p h
  · rcases List.mem_singleton.mp h with rfl
    exact hcs

/-- Reading back an encoded line at its own start offset succeeds and returns
exactly the data fields. -/
theorem ReadRow_encodeLine {hash : String → String} {data : List String}
    (hne : data ≠ []) (hcl : CleanRow data)
    (hcs : CleanS (calculateChecksum hash data)) (pre post : FileLines) :
    ReadRow hash (some (pre ++ encodeLine hash data :: post)) (fileSize pre)
      = .ok data := by
  have hlen : ¬ ((data ++ [calculateChecksum hash data]).length < 2) := by
    rcases data with _ | ⟨a, rest⟩
    · exact absurd rfl hne
    · simp
  simp only [ReadRow, readLineAt_fileSize, splitPipe_encodeLine hcl hcs]
  rw [if_neg hlen]
  simp

/-! ## Hash Index and Go map model -/

/-- Model of `engine.Index`: a Go map from primary key to byte offset,
represented as an association list.  `Index.insert` models `m[k] = v`
(overwrite), `Index.erase` models `delete(m, k)`, `Index.find` models lookup.
Two indexes built by the same sequence of map operations are equal as lists,
which is how the replay-equals-live claims are stated. -/
abbrev Index := List (String × Nat)

def Index.find : Index → String → Option Nat
  | [], _ => none
  | (k, v) :: rest, q => if q = k then some v else Index.find rest q

def Index.insert : Index → String → Nat → Index
  | [], k, v => [(k, v)]
  | (a, b) :: rest, k, v =>
    if a = k then (k, v) :: rest else (a, b) :: Index.insert rest k v

def Index.erase : Index → String → Index
  | [], _ => []
  | (a, b) :: rest, k =>
    if a = k then Index.erase rest k else (a, b) :: Index.erase rest k

theorem Index.find_insert (idx : Index) (k : String) (v : Nat) (q : String) :
    Index.find (Index.insert idx k v) q = if q = k then some v else Index.find idx q := by
  induction idx with
  | nil =>
    by_cases hq : q = k <;> simp [Index.insert, Index.find, hq]
  | cons p rest ih =>
    cases p with
    | mk a b =>
      by_cases ha : a = k
      · subst ha
        by_cases hq : q = a <;> simp [Index.insert, Index.find, hq]
      · by_cases hq : q = a
        · subst hq
          simp [Index.insert, Index.find, ha, if_neg (fun h : q = k => ha (h ▸ rfl))]
        · simp [Index.insert, Index.find, ha, hq, ih]

theorem Index.find_erase (idx : Index) (k : String) (q : String) :
    Index.find (Index.erase idx k) q = if q = k then none else Index.find idx q := by
  induction idx with
  | nil => by_cases hq : q = k <;> simp [Index.erase, Index.find, hq]
  | cons p rest ih =>
    cases p with
    | mk a b =>
      by_cases ha : a = k
      · subst ha
        simp only [Index.erase, if_pos rfl]
        by_cases hq : q = a
        · subst hq
          simp [ih]
        · simp [Index.find, ih, hq]
      · by_cases hq : q = a
        · subst hq
          simp [Index.erase, Index.find, ha, if_neg ha]
        · simp [Index.erase, Index.find, ha, hq, ih]

/-! ## Engine state (`engine/engine.go`) -/

/-- Model of `engine.TableMetadata`. -/
structure TableMetadata where
  name : String
  columns : List String
deriving DecidableEq, Repr

/-- Generic lookup in a Go map modelled as an association list. -/
def lookupA {α : Type} : List (String × α) → String → Option α
  | [], _ => none
  | (k, v) :: rest, q => if q = k then some v else lookupA rest q

/-- Generic overwrite in a Go map modelled as an association list. -/
def insertA {α : Type} : List (String × α) → String → α → List (String × α)
  | [], k, v => [(k, v)]
  | (a, b) :: rest, k, v =>
    if a = k then (k, v) :: rest else (a, b) :: insertA rest k v

theorem lookupA_insertA {α : Type} (m : List (String × α)) (k : String) (v : α)
    (q : String) :
    lookupA (insertA m k v) q = if q = k then some v else lookupA m q := by
  induction m with
  | nil => by_cases hq : q = k <;> simp [insertA, lookupA, hq]
  | cons p rest ih =>
    cases p with
    | mk a b =>
      by_cases ha : a = k
      · subst ha
        by_cases hq : q = a <;> simp [insertA, lookupA, hq]
      · by_cases hq : q = a
        · subst hq
          simp [insertA, lookupA, ha, if_neg (fun h : q = k => ha (h ▸ rfl))]
        · simp [insertA, lookupA, ha, hq, ih]

/-- Model of `engine.Database`: the two Go maps guarded by the logical lock.
Additionally carries the data directory's files (one log per table), which in
the source live on disk and are reached through the `storage` package. -/
structure DBState where
  files : List (String × FileLines)
  indexes : List (String × Index)
  tables : List (String × TableMetadata)
deriving DecidableEq

/-- Lines of `data/<t>.db`; a missing file reads as no lines. -/
def linesOf (st : DBState) (t : String) : FileLines := (lookupA st.files t).getD []

/-- The in-memory index of table `t`; a missing map entry reads as empty. -/
def idxOf (st : DBState) (t : String) : Index := (lookupA st.indexes t).getD []

/-! ## Index replay (`LoadIndex` / `RebuildIndex`) -/

/-- Processing of one scanned line by the replay loop: split on the delimiter;
fewer than two fields is skipped; active flag "1" points the key at this line's
offset, "0" removes the key, anything else is ignored. -/
def replayLine (idx : Index) (offset : Nat) (line : String) : Index :=
  let parts := splitPipe line
  if parts.length < 2 then idx
  else
    let id := parts.headD ""
    let activeFlag := (parts[1]?).getD ""
    if activeFlag = "1" then idx.insert id offset
    else if activeFlag = "0" then idx.erase id
    else idx

/-- Sequential scan from `offset`, advancing by each line's encoded length. -/
def replayLines (idx : Index) (offset : Nat) : List String → Index
  | [] => idx
  | l :: ls => replayLines (replayLine idx offset l) (offset + lineSize l) ls

/-- Model of `Database.RebuildIndex`: clear the table's index and rebuild it
from the log by sequential scan from byte 0.  A missing file leaves the cleared
(empty) index in place, as the source's early `return nil` does. -/
def RebuildIndex (st : DBState) (t : String) : DBState :=
  let cleared := { st with indexes := insertA st.indexes t [] }
  match lookupA st.files t with
  | none => cleared
  | some lines =>
    { cleared with indexes := insertA cleared.indexes t (replayLines [] 0 lines) }

/-- Outcome of the file I/O that `LoadIndex` performs: the file is missing, the
open fails for another reason, or it opens and the scanner delivers `n` lines
before stopping (`scanErr = some e` when it stops with a read error rather than
at end of file; `n` is then the number of lines delivered before the error). -/
inductive FileOutcome where
  | missing : FileOutcome
  | openFail : FileOutcome
  | scanned (lines : FileLines) (okLines : Nat) (scanErr : Option String) : FileOutcome

/-- Model of `Database.LoadIndex` with its file I/O outcome made explicit.
Faithful to the source: the index entry is initialized if absent; then EVERY
failure to open the file — missing or not — takes the early `return nil`
branch ("Assume new table"); a scanner error after a partial scan is returned,
with the partially rebuilt index left in place. -/
def LoadIndexWith (st : DBState) (t : String) (io : FileOutcome) :
    DBState × Option String :=
  let idx0 := (lookupA st.indexes t).getD []
  let st1 := { st with indexes := insertA st.indexes t idx0 }
  match io with
  | .missing => (st1, none)
  | .openFail => (st1, none)
  | .scanned lines n scanErr =>
    let st2 := { st1 with
      indexes := insertA st1.indexes t (replayLines idx0 0 (lines.take n)) }
    match scanErr with
    | none => (st2, none)
    | some _ => (st2, some ("error reading table file " ++ t))

/-- Model of `Database.LoadIndex` in the ordinary cases (file present and fully
scanned, or absent): the file map itself decides the outcome. -/
def LoadIndex (st : DBState) (t : String) : DBState × Option String :=
  match lookupA st.files t with
  | none => LoadIndexWith st t .missing
  | some lines => LoadIndexWith st t (.scanned lines lines.length none)

/-- Model of the per-table loop of `Database.Recover`: each table's index is
loaded; a failure is printed as a warning and recovery continues with the
remaining tables; the loop itself never reports an error. -/
def RecoverTables (st : DBState) (io : String → FileOutcome) :
    List String → DBState × Option String
  | [] => (st, none)
  | t :: rest => RecoverTables (LoadIndexWith st t (io t)).1 io rest

/-! ## Engine CRUD operations -/

/-- Go slice truncation `row[:n]` applied only when the row is longer, as in
`FindByID` and `SelectAll`. -/
def truncRow (row : List String) (n : Nat) : List String :=
  if n < row.length then row.take n else row

/-- Model of `Database.FindByID`: unknown table (no index map entry) and absent
key produce the two not-found errors; otherwise the row is read at the indexed
offset and, when metadata exists, truncated to schema width `columns + 2`. -/
def FindByID (hash : String → String) (st : DBState) (t id : String) :
    Except String (List String) :=
  match lookupA st.indexes t with
  | none => .error ("table " ++ t ++ " does not exist")
  | some index =>
    let metaOpt := lookupA st.tables t
    match index.find id with
    | none => .error ("record with id " ++ id ++ " not found in table " ++ t)
    | some offset =>
      match ReadRow hash (lookupA st.files t) offset with
      | .error e => .error e
      | .ok row =>
        match metaOpt with
        | some metadata => .ok (truncRow row (metadata.columns.length + 2))
        | none => .ok row

/-- Model of `Database.InsertRow`: validate at least two fields, append the
row, then point the (created-if-absent) index at the new offset — with no
check of the active flag and no uniqueness check. -/
def InsertRow (hash : String → String) (st : DBState) (t : String)
    (row : List String) : DBState × Option String :=
  if row.length < 2 then (st, some "invalid row data: too few columns")
  else
    let id := row.headD ""
    let (offset, newLines) := AppendRow hash (linesOf st t) row
    let idx := (lookupA st.indexes t).getD []
    ({ st with
        files := insertA st.files t newLines,
        indexes := insertA st.indexes t (idx.insert id offset) }, none)

/-- Model of `Database.DeleteRow` with the tombstone append's I/O outcome made
explicit (`appendFail = some e` injects a write failure).  Faithful order: find
the row, build the tombstone (active flag forced to "0"), append it, and only
then remove the key from the index — if the append fails the error is returned
with the index untouched. -/
def DeleteRowWith (hash : String → String) (st : DBState) (t id : String)
    (appendFail : Option String) : DBState × Option String :=
  match FindByID hash st t id with
  | .error e => (st, some e)
  | .ok currentRow =>
    if currentRow.length < 2 then (st, some "corrupt data: row too short")
    else
      let tombstoneRow := currentRow.set 1 "0"
      match appendFail with
      | some e => (st, some ("failed to append tombstone: " ++ e))
      | none =>
        let (_, newLines) := AppendRow hash (linesOf st t) tombstoneRow
        ({ st with
            files := insertA st.files t newLines,
            indexes := match lookupA st.indexes t with
              | some idx => insertA st.indexes t (idx.erase id)
              | none => st.indexes }, none)

/-- Model of `Database.DeleteRow` with the append succeeding. -/
def DeleteRow (hash : String → String) (st : DBState) (t id : String) :
    DBState × Option String :=
  DeleteRowWith hash st t id none

/-- First word of a column declaration "name type": model of
`strings.SplitN(colDef, " ", 2)[0]`. -/
def takeUntilSpace : List Char → List Char
  | [] => []
  | c :: rest => if c = ' ' then [] else c :: takeUntilSpace rest

def colNameOf (colDef : String) : String := String.mk (takeUntilSpace colDef.data)

/-- Model of `strings.EqualFold` as used on ASCII column names. -/
def eqFold (a b : String) : Bool :=
  a.data.map Char.toLower == b.data.map Char.toLower

/-- The loop resolving a named column to a row position: declared column 0 maps
to row position 0 (the key slot); declared column `i ≥ 1` maps to `i + 1`,
shifted past the active-flag slot.  `none` models `colIndex == -1`. -/
def findColIndexFrom (i : Nat) (colName : String) : List String → Option Nat
  | [] => none
  | colDef :: rest =>
    if eqFold (colNameOf colDef) colName then some (if i = 0 then 0 else i + 1)
    else findColIndexFrom (i + 1) colName rest

def findColIndex (columns : List String) (colName : String) : Option Nat :=
  findColIndexFrom 0 colName columns

/-- The update-application loop of `UpdateRow` (steps over the updates map in
some iteration order, here the list order): resolve each column name, fail on
an unknown name or an out-of-range position, otherwise overwrite the slot. -/
def applyUpdates (columns : List String) (t : String) :
    List String → List (String × String) → Except String (List String)
  | row, [] => .ok row
  | row, (colName, newVal) :: rest =>
    match findColIndex columns colName with
    | none => .error ("column " ++ colName ++ " not found in table " ++ t)
    | some colIndex =>
      if row.length ≤ colIndex then
        .error ("row structure mismatch for column " ++ colName)
      else applyUpdates columns t (row.set colIndex newVal) rest

/-- Model of `Database.UpdateRow`: find the current row, require metadata,
require the row to span the schema (`columns + 1` fields; SHORTER rows are an
error, not padded), truncate to exactly that width, force the active flag to
"1", apply the named updates, append the new version and repoint the index.
The source indexes `newRow[1]` unconditionally, which panics for a table with
zero declared columns; the model returns that panic as an error. -/
def UpdateRow (hash : String → String) (st : DBState) (t id : String)
    (updates : List (String × String)) : DBState × Option String :=
  match FindByID hash st t id with
  | .error e => (st, some e)
  | .ok currentRow =>
    match lookupA st.tables t with
    | none => (st, some ("table " ++ t ++ " metadata not found"))
    | some metadata =>
      let expectedLen := metadata.columns.length + 1
      if currentRow.length < expectedLen then
        (st, some ("data corruption: row shorter than schema (len=" ++
          toString currentRow.length ++ ", expected=" ++ toString expectedLen ++ ")"))
      else if expectedLen < 2 then
        (st, some "panic: index out of range")
      else
        let newRow := (currentRow.take expectedLen).set 1 "1"
        match applyUpdates metadata.columns t newRow updates with
        | .error e => (st, some e)
        | .ok finalRow =>
          let (offset, newLines) := AppendRow hash (linesOf st t) finalRow
          ({ st with
              files := insertA st.files t newLines,
              indexes := match lookupA st.indexes t with
                | some idx => insertA st.indexes t (idx.insert id offset)
                | none => st.indexes }, none)

/-- The row-reading loop of `SelectAll`: read each indexed record in order; a
failed read aborts the whole loop with an error naming the record's id;
successful reads are schema-truncated when a width is known (`w > 0`). -/
def readAllRows (hash : String → String) (file : Option FileLines) (w : Nat) :
    List (String × Nat) → Except String (List (List String))
  | [] => .ok []
  | rec :: rest =>
    match ReadRow hash file rec.2 with
    | .error e => .error ("failed to read row for id " ++ rec.1 ++ ": " ++ e)
    | .ok row =>
      let row1 := if 0 < w ∧ w < row.length then row.take w else row
      match readAllRows hash file w rest with
      | .error e => .error e
      | .ok rows => .ok (row1 :: rows)

/-- The `expectedTotalLen` that `SelectAll` computes: schema width
`columns + 2` when metadata exists, otherwise 0 (no truncation). -/
def schemaWidth (st : DBState) (t : String) : Nat :=
  match lookupA st.tables t with
  | some metadata => metadata.columns.length + 2
  | none => 0

/-- Model of `Database.SelectAll`: unknown table fails not-found; otherwise the
(key, offset) pairs of the index are sorted ascending by offset (`sort.Slice`
with the offset comparator, modelled by insertion sort — any sort
nondecreasing in the offset; indexed offsets are distinct in reachable
states) and each row is read and schema-truncated; any single read failure
aborts the scan. -/
def SelectAll (hash : String → String) (st : DBState) (t : String) :
    Except String (List (List String)) :=
  match lookupA st.indexes t with
  | none => .error ("table " ++ t ++ " does not exist")
  | some index =>
    let records := List.insertionSort (fun a b => a.2 ≤ b.2) index
    let expectedTotalLen := schemaWidth st t
    readAllRows hash (lookupA st.files t) expectedTotalLen records

/-! ## Operation sequences and the replay invariant -/

/-- A mutating engine operation, as named in the claims. -/
inductive Op where
  | insert (t : String) (row : List String)
  | update (t : String) (id : String) (updates : List (String × String))
  | delete (t : String) (id : String)

def runOp (hash : String → String) (st : DBState) : Op → DBState × Option String
  | .insert t row => InsertRow hash st t row
  | .update t id updates => UpdateRow hash st t id updates
  | .delete t id => DeleteRow hash st t id

/-- Live execution of a sequence of operations; an operation that returns an
error leaves the state unchanged (which the source guarantees by erroring out
before any mutation) and the sequence continues. -/
def runOps (hash : String → String) (st : DBState) : List Op → DBState
  | [] => st
  | op :: ops => runOps hash (runOp hash st op).1 ops

/-- Initial state: fresh database with registered schemas, no data files, no
indexes (as after `CreateTable` on brand-new tables, whose files are empty). -/
def DBState.init (tbls : List (String × TableMetadata)) : DBState :=
  { files := [], indexes := [], tables := tbls }

/-- Calls the claims range over: fields are free of the delimiter and of
newlines; an inserted row carries active flag "1" when it has one; an update
writes clean values and never addresses the first declared column (which would
rename the stored key field out from under the index). -/
def WFOp (tbls : List (String × TableMetadata)) : Op → Prop
  | .insert _ row => CleanRow row ∧ (row[1]? = none ∨ row[1]? = some "1")
  | .update t _ updates =>
      (∀ p ∈ updates, CleanS p.2) ∧
      (∀ m, lookupA tbls t = some m →
        ∀ p ∈ updates, findColIndex m.columns p.1 ≠ some 0)
  | .delete _ _ => True

instance decForAllMeta (tbls : List (String × TableMetadata)) (t : String)
    (updates : List (String × String)) :
    Decidable (∀ m, lookupA tbls t = some m →
      ∀ p ∈ updates, findColIndex m.columns p.1 ≠ some 0) :=
  match lookupA tbls t with
  | none => isTrue (by intro m hm; cases hm)
  | some m0 =>
    decidable_of_iff (∀ p ∈ updates, findColIndex m0.columns p.1 ≠ some 0)
      (by
        constructor
        · intro hp m hm
          cases hm
          exact hp
        · intro hall
          exact hall m0 rfl)

instance (tbls : List (String × TableMetadata)) (op : Op) :
    Decidable (WFOp tbls op) := by
  cases op with
  | insert t row => unfold WFOp; infer_instance
  | update t id updates => unfold WFOp; infer_instance
  | delete t id => unfold WFOp; infer_instance

/-- Data fields of a line as every engine write produces them: clean, at least
key and active flag, and the flag is the literal "1" or "0". -/
def GoodData (d : List String) : Prop :=
  CleanRow d ∧ 2 ≤ d.length ∧ (d[1]? = some "1" ∨ d[1]? = some "0")

/-- A log line written by the engine: the encoding of some good data row. -/
def GoodLine (hash : String → String) (l : String) : Prop :=
  ∃ d, GoodData d ∧ l = encodeLine hash d

/-- The only property asked of the checksum function: hexadecimal output
contains neither the delimiter nor a newline. -/
def CleanHash (hash : String → String) : Prop := ∀ s, CleanS (hash s)

/-- The replay invariant: every line of every log was written by the engine,
and every table's live index equals the replay of its log from byte 0. -/
def RepInv (hash : String → String) (st : DBState) : Prop :=
  ∀ t, (∀ l ∈ linesOf st t, GoodLine hash l) ∧
    idxOf st t = replayLines [] 0 (linesOf st t)

/-- The most recently written log record whose first field equals `k`,
together with the byte offset it starts at (`off` is the offset of the first
line scanned). -/
def lastRecordFor (k : String) : Nat → List String → Option (Nat × String)
  | _, [] => none
  | off, l :: ls =>
    match lastRecordFor k (off + lineSize l) ls with
    | some r => some r
    | none => if (splitPipe l).headD "" = k then some (off, l) else none

/-! ## Replay analysis -/

theorem fileSize_nil : fileSize [] = 0 := rfl

theorem fileSize_cons (l : String) (ls : FileLines) :
    fileSize (l :: ls) = lineSize l + fileSize ls := by
  simp [fileSize]

theorem replayLines_snoc (idx : Index) (o : Nat) (xs : FileLines) (l : String) :
    replayLines idx o (xs ++ [l]) =
      replayLine (replayLines idx o xs) (o + fileSize xs) l := by
  induction xs generalizing idx o with
  | nil => simp [replayLines, fileSize]
  | cons x rest ih =>
    simp only [List.cons_append, replayLines, List.append_eq, ih, fileSize_cons]
    rw [Nat.add_assoc]

theorem headD_append {α : Type} (xs ys : List α) (d : α) (h : xs ≠ []) :
    (xs ++ ys).headD d = xs.headD d := by
  cases xs with
  | nil => exact absurd rfl h
  | cons a t => rfl

theorem getElem?_append_lt {α : Type} (xs ys : List α) (i : Nat)
    (h : i < xs.length) : (xs ++ ys)[i]? = xs[i]? := by
  rw [List.getElem?_append, if_pos h]

/-- Effect of the replay loop on one engine-written line: flag "1" points the
key at the line's offset, flag "0" removes it. -/
theorem replayLine_encode (hash : String → String) {d : List String}
    (hcl : CleanRow d) (hcs : CleanS (calculateChecksum hash d))
    (h2 : 2 ≤ d.length) (idx : Index) (o : Nat) :
    replayLine idx o (encodeLine hash d) =
      if d[1]? = some "1" then idx.insert (d.headD "") o
      else if d[1]? = some "0" then idx.erase (d.headD "")
      else idx := by
  have hne : d ≠ [] := by
    intro h
    rw [h] at h2
    simp at h2
  unfold replayLine
  rw [splitPipe_encodeLine hcl hcs]
  have hlen : ¬ ((d ++ [calculateChecksum hash d]).length < 2) := by
    simp only [List.length_append, List.length_cons, List.length_nil]
    omega
  rw [if_neg hlen]
  have h0 : (d ++ [calculateChecksum hash d]).headD "" = d.headD "" :=
    headD_append _ _ _ hne
  have h1 : (d ++ [calculateChecksum hash d])[1]? = d[1]? :=
    getElem?_append_lt _ _ 1 (by omega)
  simp only [h0, h1]
  have hx : d[1]? = some d[1] := List.getElem?_eq_getElem (by omega)
  simp only [hx, Option.getD_some, Option.some.injEq]

theorem replayLine_encode_one (hash : String → String) {d : List String}
    (hcl : CleanRow d) (hcs : CleanS (calculateChecksum hash d))
    (h2 : 2 ≤ d.length) (hf : d[1]? = some "1") (idx : Index) (o : Nat) :
    replayLine idx o (encodeLine hash d) = idx.insert (d.headD "") o := by
  rw [replayLine_encode hash hcl hcs h2 idx o, if_pos hf]

theorem replayLine_encode_zero (hash : String → String) {d : List String}
    (hcl : CleanRow d) (hcs : CleanS (calculateChecksum hash d))
    (h2 : 2 ≤ d.length) (hf : d[1]? = some "0") (idx : Index) (o : Nat) :
    replayLine idx o (encodeLine hash d) = idx.erase (d.headD "") := by
  rw [replayLine_encode hash hcl hcs h2 idx o, if_neg (by simp [hf]), if_pos hf]

/-- What replay computes for one key: the last record whose first field is the
key decides (flag "1" points at it, flag "0" removes), and with no such record
the starting index decides. -/
theorem find_replayLines {hash : String → String} (hh : CleanHash hash)
    (k : String) :
    ∀ (lines : FileLines), (∀ l ∈ lines, GoodLine hash l) →
    ∀ (idx : Index) (o : Nat),
    (replayLines idx o lines).find k =
      (match lastRecordFor k o lines with
       | some r => if (splitPipe r.2)[1]? = some "1" then some r.1 else none
       | none => idx.find k) := by
  intro lines
  induction lines with
  | nil =>
    intro _ idx o
    rfl
  | cons l ls ih =>
    intro hg idx o
    have hgl := hg l (by simp)
    have hgs : ∀ x ∈ ls, GoodLine hash x := fun x hx => hg x (List.mem_cons_of_mem _ hx)
    simp only [replayLines, lastRecordFor]
    rw [ih hgs]
    cases hrec : lastRecordFor k (o + lineSize l) ls with
    | some r => rfl
    | none =>
      obtain ⟨d, ⟨hcl, h2, hflag⟩, hl⟩ := hgl
      subst hl
      have hcs : CleanS (calculateChecksum hash d) := hh _
      have h0 : (splitPipe (encodeLine hash d)).headD "" = d.headD "" := by
        rw [splitPipe_encodeLine hcl hcs]
        exact headD_append _ _ _ (by intro h; rw [h] at h2; simp at h2)
      have h1 : (splitPipe (encodeLine hash d))[1]? = d[1]? := by
        rw [splitPipe_encodeLine hcl hcs]
        exact getElem?_append_lt _ _ 1 (by omega)
      rw [h0]
      by_cases hk : d.headD "" = k
      · rw [if_pos hk]
        show (replayLine idx o (encodeLine hash d)).find k =
          if (splitPipe (encodeLine hash d))[1]? = some "1" then some o else none
        rw [h1]
        cases hflag with
        | inl hone =>
          rw [replayLine_encode_one hash hcl hcs h2 hone, if_pos hone,
            Index.find_insert, if_pos hk.symm]
        | inr hzero =>
          rw [replayLine_encode_zero hash hcl hcs h2 hzero,
            if_neg (by simp [hzero]), Index.find_erase, if_pos hk.symm]
      · rw [if_neg hk]
        show (replayLine idx o (encodeLine hash d)).find k = idx.find k
        have hk2 : ¬ (k = d.headD "") := fun h => hk h.symm
        cases hflag with
        | inl hone =>
          rw [replayLine_encode_one hash hcl hcs h2 hone,
            Index.find_insert, if_neg hk2]
        | inr hzero =>
          rw [replayLine_encode_zero hash hcl hcs h2 hzero,
            Index.find_erase, if_neg hk2]

/-- Position of the record `lastRecordFor` returns: it is a line of the log,
its offset is the total size of the lines before it, and its first field is
the key. -/
theorem lastRecordFor_decomp (k : String) :
    ∀ (lines : FileLines) (o off : Nat) (l : String),
    lastRecordFor k o lines = some (off, l) →
    ∃ pre post, lines = pre ++ l :: post ∧ off = o + fileSize pre ∧
      (splitPipe l).headD "" = k := by
  intro lines
  induction lines with
  | nil =>
    intro o off l h
    cases h
  | cons x ls ih =>
    intro o off l h
    simp only [lastRecordFor] at h
    cases hrec : lastRecordFor k (o + lineSize x) ls with
    | some r =>
      rw [hrec] at h
      cases h
      obtain ⟨pre, post, hsplit, hoff, hkey⟩ := ih (o + lineSize x) off l hrec
      refine ⟨x :: pre, post, by rw [hsplit]; rfl, ?_, hkey⟩
      rw [hoff, fileSize_cons]
      omega
    | none =>
      rw [hrec] at h
      by_cases hk : (splitPipe x).headD "" = k
      · rw [if_pos hk] at h
        cases h
        exact ⟨[], ls, rfl, by simp [fileSize], hk⟩
      · rw [if_neg hk] at h
        cases h

/-! ## Rows the engine reads back from an invariant state -/

theorem cleanS_one : CleanS "1" := by decide

theorem cleanS_zero : CleanS "0" := by decide

theorem cleanRow_take {r : List String} (n : Nat) (h : CleanRow r) :
    CleanRow (r.take n) := fun s hs => h s (List.mem_of_mem_take hs)

theorem cleanRow_set {r : List String} {v : String} (i : Nat) (h : CleanRow r)
    (hv : CleanS v) : CleanRow (r.set i v) := by
  intro s hs
  rcases List.mem_or_eq_of_mem_set hs with hmem | rfl
  · exact h s hmem
  · exact hv

theorem cleanRow_truncRow {r : List String} (n : Nat) (h : CleanRow r) :
    CleanRow (truncRow r n) := by
  unfold truncRow
  split
  · exact cleanRow_take n h
  · exact h

theorem truncRow_getElem? (r : List String) (n i : Nat) (hi : i < n) :
    (truncRow r n)[i]? = r[i]? := by
  unfold truncRow
  split
  · rw [List.getElem?_take, if_pos hi]
  · rfl

theorem truncRow_length (r : List String) (n : Nat) :
    (truncRow r n).length = min n r.length ∨ (truncRow r n).length = r.length := by
  unfold truncRow
  split
  · left; simp
  · right; rfl

theorem truncRow_length_ge {r : List String} {n m : Nat} (hm : m ≤ n)
    (hr : m ≤ r.length) : m ≤ (truncRow r n).length := by
  unfold truncRow
  split
  · simpa using ⟨hm, hr⟩
  · exact hr

theorem headD_eq_getElem? (l : List String) : l.headD "" = (l[0]?).getD "" := by
  cases l <;> simp [List.headD]

theorem truncRow_headD (r : List String) (n : Nat) (h1 : 1 ≤ n) :
    (truncRow r n).headD "" = r.headD "" := by
  rw [headD_eq_getElem?, headD_eq_getElem?, truncRow_getElem? r n 0 (by omega)]

/-- The record an index entry of an invariant state addresses: a line of the
log at exactly the indexed offset, encoding a good data row whose first field
is the key and whose active flag is "1". -/
theorem indexed_line_decomp {hash : String → String} {st : DBState}
    {t k : String} {off : Nat} (hh : CleanHash hash) (hinv : RepInv hash st)
    (hfind : (idxOf st t).find k = some off) :
    ∃ pre d post,
      linesOf st t = pre ++ encodeLine hash d :: post ∧
      off = fileSize pre ∧ GoodData d ∧ d.headD "" = k ∧ d[1]? = some "1" := by
  obtain ⟨hgood, hidx⟩ := hinv t
  rw [hidx, find_replayLines hh k _ hgood [] 0] at hfind
  cases hrec : lastRecordFor k 0 (linesOf st t) with
  | none =>
    rw [hrec] at hfind
    exact absurd hfind (by simp [Index.find])
  | some r =>
    rw [hrec] at hfind
    obtain ⟨o1, l1⟩ := r
    by_cases hflag : (splitPipe l1)[1]? = some "1"
    · have hfind2 : (if (splitPipe l1)[1]? = some "1" then some o1 else none)
        = some off := hfind
      rw [if_pos hflag] at hfind2
      have ho : o1 = off := by
        simpa using hfind2
      subst ho
      obtain ⟨pre, post, hsplit, hoff, hkey⟩ := lastRecordFor_decomp k _ 0 o1 l1 hrec
      have hmem : l1 ∈ linesOf st t := by rw [hsplit]; simp
      obtain ⟨d, hgd, hdl⟩ := hgood l1 hmem
      subst hdl
      have hcs : CleanS (calculateChecksum hash d) := hh _
      have hsp : splitPipe (encodeLine hash d) = d ++ [calculateChecksum hash d] :=
        splitPipe_encodeLine hgd.1 hcs
      have hne : d ≠ [] := by
        intro h
        rw [h] at hgd
        simpa using hgd.2.1
      refine ⟨pre, d, post, hsplit, by omega, hgd, ?_, ?_⟩
      · rw [hsp] at hkey
        rw [← headD_append d [calculateChecksum hash d] "" hne]
        exact hkey
      · rw [hsp, getElem?_append_lt d _ 1 (by have := hgd.2.1; omega)] at hflag
        exact hflag
    · have hfind2 : (if (splitPipe l1)[1]? = some "1" then some o1 else none)
        = some off := hfind
      rw [if_neg hflag] at hfind2
      cases hfind2

/-- Evaluation of `FindByID` for a key present in the index of an invariant
state: the read succeeds and returns the indexed record's data fields,
schema-truncated when metadata exists. -/
theorem FindByID_eval {hash : String → String} {st : DBState} {t k : String}
    {index : Index} {off : Nat} (hh : CleanHash hash) (hinv : RepInv hash st)
    (hidx : lookupA st.indexes t = some index) (hfind : index.find k = some off) :
    ∃ d, GoodData d ∧ d.headD "" = k ∧ d[1]? = some "1" ∧
      ReadRow hash (lookupA st.files t) off = .ok d ∧
      FindByID hash st t k =
        .ok (match lookupA st.tables t with
             | some m => truncRow d (m.columns.length + 2)
             | none => d) := by
  have hfind0 : (idxOf st t).find k = some off := by
    unfold idxOf
    rw [hidx]
    exact hfind
  obtain ⟨pre, d, post, hlines, hoff, hgd, hhead, hflag⟩ :=
    indexed_line_decomp hh hinv hfind0
  have hne : d ≠ [] := by
    intro h
    rw [h] at hgd
    simpa using hgd.2.1
  have hfile : lookupA st.files t = some (pre ++ encodeLine hash d :: post) := by
    cases hf : lookupA st.files t with
    | none =>
      unfold linesOf at hlines
      rw [hf] at hlines
      simp at hlines
    | some lines =>
      unfold linesOf at hlines
      rw [hf] at hlines
      simp only [Option.getD_some] at hlines
      rw [hlines]
  have hread : ReadRow hash (lookupA st.files t) off = .ok d := by
    rw [hfile, hoff]
    exact ReadRow_encodeLine hne hgd.1 (hh _) pre post
  refine ⟨d, hgd, hhead, hflag, hread, ?_⟩
  unfold FindByID
  rw [hidx]
  show (match index.find k with
    | none =>
      Except.error ("record with id " ++ k ++ " not found in table " ++ t)
    | some offset =>
      match ReadRow hash (lookupA st.files t) offset with
      | Except.error e => Except.error e
      | Except.ok row =>
        match lookupA st.tables t with
        | some metadata => Except.ok (truncRow row (metadata.columns.length + 2))
        | none => Except.ok row) = _
  rw [hfind]
  show (match ReadRow hash (lookupA st.files t) off with
    | Except.error e => Except.error e
    | Except.ok row =>
      match lookupA st.tables t with
      | some metadata => Except.ok (truncRow row (metadata.columns.length + 2))
      | none => Except.ok row) = _
  rw [hread]
  cases lookupA st.tables t <;> rfl

/-! ## Update application -/

theorem findColIndexFrom_shape (cn : String) :
    ∀ (cols : List String) (i r : Nat),
    findColIndexFrom i cn cols = some r → r = 0 ∨ 2 ≤ r := by
  intro cols
  induction cols with
  | nil =>
    intro i r h
    cases h
  | cons cd rest ih =>
    intro i r h
    simp only [findColIndexFrom] at h
    by_cases he : eqFold (colNameOf cd) cn = true
    · rw [if_pos he] at h
      have hr : (if i = 0 then 0 else i + 1) = r := by
        simpa using h
      by_cases hi : i = 0
      · left
        rw [← hr, if_pos hi]
      · right
        rw [← hr, if_neg hi]
        omega
    · rw [if_neg he] at h
      exact ih (i + 1) r h

/-- Properties of a completed update pass: the row keeps its length, its key
slot (position 0, because no update resolves there) and its active-flag slot
(position 1, which no column ever resolves to), and stays clean when the
written values are clean. -/
theorem applyUpdates_props (cols : List String) (tn : String) :
    ∀ (us : List (String × String)) (row w : List String),
    applyUpdates cols tn row us = .ok w →
    (∀ p ∈ us, findColIndex cols p.1 ≠ some 0) →
    CleanRow row → (∀ p ∈ us, CleanS p.2) →
    CleanRow w ∧ w.length = row.length ∧ w[0]? = row[0]? ∧ w[1]? = row[1]? := by
  intro us
  induction us with
  | nil =>
    intro row w h _ hcr _
    have hw : row = w := by simpa [applyUpdates] using h
    subst hw
    exact ⟨hcr, rfl, rfl, rfl⟩
  | cons p rest ih =>
    intro row w h h0 hcr hcv
    simp only [applyUpdates] at h
    cases hf : findColIndex cols p.1 with
    | none =>
      rw [hf] at h
      cases h
    | some ci =>
      simp only [hf] at h
      by_cases hlen : row.length ≤ ci
      · rw [if_pos hlen] at h
        cases h
      · rw [if_neg hlen] at h
        have hci0 : ci ≠ 0 := fun hc => (h0 p (by simp)) (hc ▸ hf)
        have hci1 : ci ≠ 1 := by
          rcases findColIndexFrom_shape p.1 cols 0 ci hf with h1 | h1 <;> omega
        obtain ⟨hw1, hw2, hw3, hw4⟩ := ih (row.set ci p.2) w h
          (fun q hq => h0 q (List.mem_cons_of_mem _ hq))
          (cleanRow_set ci hcr (hcv p (by simp)))
          (fun q hq => hcv q (List.mem_cons_of_mem _ hq))
        refine ⟨hw1, ?_, ?_, ?_⟩
        · rw [hw2, List.length_set]
        · rw [hw3, List.getElem?_set_ne hci0]
        · rw [hw4, List.getElem?_set_ne hci1]

/-! ## Invariant preservation -/

/-- Appending one engine-written line and replaying it into the table's index
preserves the invariant; every mutating operation is an instance of this. -/
theorem RepInv_step {hash : String → String}
    {st : DBState} (hinv : RepInv hash st) (t : String) {d : List String}
    (hgd : GoodData d) :
    RepInv hash
      { st with
        files := insertA st.files t (linesOf st t ++ [encodeLine hash d]),
        indexes := insertA st.indexes t
          (replayLine (idxOf st t) (fileSize (linesOf st t))
            (encodeLine hash d)) } := by
  intro u
  by_cases hu : u = t
  · subst hu
    have hlines : linesOf
        { st with
          files := insertA st.files u (linesOf st u ++ [encodeLine hash d]),
          indexes := insertA st.indexes u
            (replayLine (idxOf st u) (fileSize (linesOf st u))
              (encodeLine hash d)) } u
        = linesOf st u ++ [encodeLine hash d] := by
      simp [linesOf, lookupA_insertA]
    have hidx : idxOf
        { st with
          files := insertA st.files u (linesOf st u ++ [encodeLine hash d]),
          indexes := insertA st.indexes u
            (replayLine (idxOf st u) (fileSize (linesOf st u))
              (encodeLine hash d)) } u
        = replayLine (idxOf st u) (fileSize (linesOf st u)) (encodeLine hash d) := by
      simp [idxOf, lookupA_insertA]
    constructor
    · intro l hl
      rw [hlines] at hl
      rcases List.mem_append.mp hl with hold | hnew
      · exact (hinv u).1 l hold
      · rcases List.mem_singleton.mp hnew with rfl
        exact ⟨d, hgd, rfl⟩
    · rw [hlines, hidx, replayLines_snoc, (hinv u).2]
      simp
  · have hlines : linesOf
        { st with
          files := insertA st.files t (linesOf st t ++ [encodeLine hash d]),
          indexes := insertA st.indexes t
            (replayLine (idxOf st t) (fileSize (linesOf st t))
              (encodeLine hash d)) } u = linesOf st u := by
      simp [linesOf, lookupA_insertA, hu]
    have hidx : idxOf
        { st with
          files := insertA st.files t (linesOf st t ++ [encodeLine hash d]),
          indexes := insertA st.indexes t
            (replayLine (idxOf st t) (fileSize (linesOf st t))
              (encodeLine hash d)) } u = idxOf st u := by
      simp [idxOf, lookupA_insertA, hu]
    rw [hlines, hidx]
    exact hinv u

theorem FindByID_ok_shape {hash : String → String} {st : DBState}
    {t id : String} {r : List String} (h : FindByID hash st t id = .ok r) :
    ∃ index off, lookupA st.indexes t = some index ∧ index.find id = some off := by
  unfold FindByID at h
  cases hidx : lookupA st.indexes t with
  | none =>
    simp only [hidx] at h
    cases h
  | some index =>
    simp only [hidx] at h
    cases hfind : index.find id with
    | none =>
      simp only [hfind] at h
      cases h
    | some off => exact ⟨index, off, rfl, hfind⟩

theorem RepInv_InsertRow {hash : String → String} (hh : CleanHash hash)
    {st : DBState} (hinv : RepInv hash st) (t : String) (row : List String)
    (hcl : CleanRow row) (hfl : row[1]? = none ∨ row[1]? = some "1") :
    RepInv hash (InsertRow hash st t row).1 := by
  by_cases hlen : row.length < 2
  · unfold InsertRow
    rw [if_pos hlen]
    exact hinv
  · have h2 : 2 ≤ row.length := by omega
    have hflag : row[1]? = some "1" := by
      cases hfl with
      | inl hnone =>
        rw [List.getElem?_eq_getElem (by omega : 1 < row.length)] at hnone
        cases hnone
      | inr hone => exact hone
    have hgd : GoodData row := ⟨hcl, h2, Or.inl hflag⟩
    have hstep := RepInv_step hinv t hgd
    rw [replayLine_encode_one hash hcl (hh _) h2 hflag] at hstep
    unfold InsertRow
    rw [if_neg hlen]
    exact hstep

theorem RepInv_DeleteRow {hash : String → String} (hh : CleanHash hash)
    {st : DBState} (hinv : RepInv hash st) (t id : String) :
    RepInv hash (DeleteRow hash st t id).1 := by
  unfold DeleteRow DeleteRowWith
  cases hF : FindByID hash st t id with
  | error e => exact hinv
  | ok r =>
    dsimp only
    by_cases hr2 : r.length < 2
    · rw [if_pos hr2]
      exact hinv
    · rw [if_neg hr2]
      obtain ⟨index, off0, hidx, hfind⟩ := FindByID_ok_shape hF
      obtain ⟨d, hgd, hhead, hflag1, hread, hFv⟩ := FindByID_eval hh hinv hidx hfind
      have hrd : r = (match lookupA st.tables t with
          | some m => truncRow d (m.columns.length + 2)
          | none => d) := by
        have h1 := hF.symm.trans hFv
        exact (Except.ok.injEq _ _).mp h1
      have hclr : CleanRow r := by
        rw [hrd]
        cases lookupA st.tables t with
        | none => exact hgd.1
        | some m => exact cleanRow_truncRow _ hgd.1
      have hrhead : r.headD "" = id := by
        rw [hrd]
        cases lookupA st.tables t with
        | none => exact hhead
        | some m =>
          rw [truncRow_headD _ _ (by omega)]
          exact hhead
      have h2r : 2 ≤ r.length := by omega
      have hflag0 : (r.set 1 "0")[1]? = some "0" :=
        List.getElem?_set_self (by omega)
      have htomb : GoodData (r.set 1 "0") :=
        ⟨cleanRow_set 1 hclr cleanS_zero, by rw [List.length_set]; omega,
          Or.inr hflag0⟩
      have htombhead : (r.set 1 "0").headD "" = id := by
        rw [headD_eq_getElem?, List.getElem?_set_ne (by omega : (1 : Nat) ≠ 0),
          ← headD_eq_getElem?, hrhead]
      have hstep := RepInv_step hinv t htomb
      rw [replayLine_encode_zero hash htomb.1 (hh _) htomb.2.1 hflag0,
        htombhead] at hstep
      have hidxeq : idxOf st t = index := by simp [idxOf, hidx]
      rw [hidxeq] at hstep
      rw [hidx]
      exact hstep

theorem RepInv_UpdateRow {hash : String → String} (hh : CleanHash hash)
    {st : DBState} (hinv : RepInv hash st) (t id : String)
    (us : List (String × String)) (hv : ∀ p ∈ us, CleanS p.2)
    (h0 : ∀ m, lookupA st.tables t = some m →
      ∀ p ∈ us, findColIndex m.columns p.1 ≠ some 0) :
    RepInv hash (UpdateRow hash st t id us).1 := by
  unfold UpdateRow
  cases hF : FindByID hash st t id with
  | error e => exact hinv
  | ok r =>
    cases hm : lookupA st.tables t with
    | none => exact hinv
    | some m =>
      dsimp only
      by_cases hshort : r.length < m.columns.length + 1
      · rw [if_pos hshort]
        exact hinv
      · rw [if_neg hshort]
        by_cases hpanic : m.columns.length + 1 < 2
        · rw [if_pos hpanic]
          exact hinv
        · rw [if_neg hpanic]
          cases hA : applyUpdates m.columns t
              ((r.take (m.columns.length + 1)).set 1 "1") us with
          | error e => exact hinv
          | ok w =>
            obtain ⟨index, off0, hidx, hfind⟩ := FindByID_ok_shape hF
            obtain ⟨d, hgd, hhead, hflag1, hread, hFv⟩ :=
              FindByID_eval hh hinv hidx hfind
            have hrd : r = truncRow d (m.columns.length + 2) := by
              have h1 := hF.symm.trans hFv
              rw [hm] at h1
              exact (Except.ok.injEq _ _).mp h1
            have hclr : CleanRow r := by
              rw [hrd]
              exact cleanRow_truncRow _ hgd.1
            have hrq : r.headD "" = id := by
              rw [hrd, truncRow_headD _ _ (by omega)]
              exact hhead
            have hlen_take : (r.take (m.columns.length + 1)).length
                = m.columns.length + 1 := by
              rw [List.length_take]
              omega
            have hnewlen : ((r.take (m.columns.length + 1)).set 1 "1").length
                = m.columns.length + 1 := by
              rw [List.length_set, hlen_take]
            have hnew0 : ((r.take (m.columns.length + 1)).set 1 "1")[0]?
                = r[0]? := by
              rw [List.getElem?_set_ne (by omega : (1 : Nat) ≠ 0),
                List.getElem?_take, if_pos (by omega)]
            have hnew1 : ((r.take (m.columns.length + 1)).set 1 "1")[1]?
                = some "1" :=
              List.getElem?_set_self (by rw [hlen_take]; omega)
            have hnewclean : CleanRow ((r.take (m.columns.length + 1)).set 1 "1") :=
              cleanRow_set 1 (cleanRow_take _ hclr) cleanS_one
            obtain ⟨hwc, hwlen, hw0, hw1⟩ := applyUpdates_props m.columns t us _ w
              hA (h0 m hm) hnewclean hv
            have hwlen2 : w.length = m.columns.length + 1 := by
              rw [hwlen, hnewlen]
            have hwflag : w[1]? = some "1" := hw1.trans hnew1
            have hwgd : GoodData w := ⟨hwc, by omega, Or.inl hwflag⟩
            have hwhead : w.headD "" = id := by
              rw [headD_eq_getElem?, hw0, hnew0, ← headD_eq_getElem?, hrq]
            have hstep := RepInv_step hinv t hwgd
            rw [replayLine_encode_one hash hwc (hh _) (by omega) hwflag,
              hwhead] at hstep
            have hidxeq : idxOf st t = index := by simp [idxOf, hidx]
            rw [hidxeq] at hstep
            rw [hidx]
            exact hstep

theorem InsertRow_tables (hash : String → String) (st : DBState) (t : String)
    (row : List String) : (InsertRow hash st t row).1.tables = st.tables := by
  unfold InsertRow
  split <;> rfl

theorem UpdateRow_tables (hash : String → String) (st : DBState) (t id : String)
    (us : List (String × String)) :
    (UpdateRow hash st t id us).1.tables = st.tables := by
  unfold UpdateRow
  repeat first
    | rfl
    | split
    | dsimp only

theorem DeleteRow_tables (hash : String → String) (st : DBState) (t id : String) :
    (DeleteRow hash st t id).1.tables = st.tables := by
  unfold DeleteRow DeleteRowWith
  repeat first
    | rfl
    | split
    | dsimp only

theorem runOp_tables (hash : String → String) (st : DBState) (op : Op) :
    (runOp hash st op).1.tables = st.tables := by
  cases op with
  | insert t row => exact InsertRow_tables hash st t row
  | update t id us => exact UpdateRow_tables hash st t id us
  | delete t id => exact DeleteRow_tables hash st t id

theorem RepInv_runOp {hash : String → String} (hh : CleanHash hash)
    {st : DBState} (hinv : RepInv hash st) (op : Op)
    (hwf : WFOp st.tables op) : RepInv hash (runOp hash st op).1 := by
  cases op with
  | insert t row => exact RepInv_InsertRow hh hinv t row hwf.1 hwf.2
  | update t id us => exact RepInv_UpdateRow hh hinv t id us hwf.1 hwf.2
  | delete t id => exact RepInv_DeleteRow hh hinv t id

theorem RepInv_runOps {hash : String → String} (hh : CleanHash hash) :
    ∀ (ops : List Op) (st : DBState), RepInv hash st →
    (∀ op ∈ ops, WFOp st.tables op) →
    RepInv hash (runOps hash st ops) ∧ (runOps hash st ops).tables = st.tables := by
  intro ops
  induction ops with
  | nil =>
    intro st h _
    exact ⟨h, rfl⟩
  | cons op rest ih =>
    intro st hinv hwf
    have h1 := RepInv_runOp hh hinv op (hwf op (by simp))
    have ht := runOp_tables hash st op
    obtain ⟨h2, h3⟩ := ih (runOp hash st op).1 h1
      (by
        intro o ho
        rw [ht]
        exact hwf o (List.mem_cons_of_mem _ ho))
    refine ⟨h2, ?_⟩
    show (runOps hash (runOp hash st op).1 rest).tables = st.tables
    rw [h3, ht]

theorem RepInv_init (hash : String → String)
    (tbls : List (String × TableMetadata)) :
    RepInv hash (DBState.init tbls) := by
  intro t
  constructor
  · intro l hl
    simp [linesOf, DBState.init, lookupA] at hl
  · simp [linesOf, idxOf, DBState.init, lookupA, replayLines]

/-! ## Concrete fixtures used by witnesses and counterexamples -/

deriving instance DecidableEq for Except

/-- A stand-in for the SHA-256 hex digest in concrete evaluations: any
function whose output is delimiter-free and newline-free satisfies every
hypothesis the theorems place on the hash. -/
def hash0 : String → String := fun _ => "h"

def tbl0 : TableMetadata := { name := "t", columns := ["a int", "b int"] }

/-- A one-table database holding the row k,1,x,y inserted into table t. -/
def stW : DBState :=
  (InsertRow hash0 (DBState.init [("t", tbl0)]) "t" ["k", "1", "x", "y"]).1

/-! ## Claim theorems -/

/-- C3: for every non-empty row whose fields contain no delimiter and no
newline, appending it (which encodes it with a trailing checksum) and reading
back at the returned offset yields exactly the row:
decode(encode(r)) = r. -/
theorem c3_append_then_read_roundtrip (hash : String → String)
    (lines : FileLines) (r : List String) (hne : r ≠ []) (hcl : CleanRow r)
    (hcs : CleanS (calculateChecksum hash r)) :
    ReadRow hash (some (AppendRow hash lines r).2) (AppendRow hash lines r).1
      = .ok r :=
  ReadRow_encodeLine hne hcl hcs lines []

theorem c3_roundtrip_witness :
    (["a", "b"] : List String) ≠ [] ∧ CleanRow ["a", "b"] ∧
    CleanS (calculateChecksum hash0 ["a", "b"]) ∧
    ReadRow hash0 (some (AppendRow hash0 [] ["a", "b"]).2)
      (AppendRow hash0 [] ["a", "b"]).1 = .ok ["a", "b"] :=
  ⟨by decide, by decide, by decide,
    c3_append_then_read_roundtrip hash0 [] ["a", "b"] (by decide) (by decide)
      (by decide)⟩

/-- C4: what index replay does with each file I/O outcome.  A missing file is
treated as an empty table (no error) and the per-table recovery loop always
continues to the next table — but an open failure that is NOT
a missing file is also swallowed (`LoadIndex` returns nil on every open
error), contradicting the claim that such failures are surfaced; only a
scanner failure after opening is surfaced. -/
theorem c4_recovery_error_handling (st : DBState) (t : String)
    (lines : FileLines) (n : Nat) (e : String) (io : String → FileOutcome)
    (tables : List String) :
    (LoadIndexWith st t .missing).2 = none ∧
    (LoadIndexWith st t .openFail).2 = none ∧
    (LoadIndexWith st t (.scanned lines n (some e))).2
      = some ("error reading table file " ++ t) ∧
    (RecoverTables st io tables).2 = none := by
  refine ⟨rfl, rfl, rfl, ?_⟩
  induction tables generalizing st with
  | nil => rfl
  | cons a rest ih => exact ih _

/-- C9: inserting a row of at least two fields into a table name that was
never registered does not fail: the log file is created with the one appended
line, a fresh index is created for the table, and the row's key is recorded
at the new offset (0, the start of the fresh file). -/
theorem c9_insert_into_unregistered_table (hash : String → String)
    (st : DBState) (t : String) (row : List String)
    (hfile : lookupA st.files t = none) (hidx : lookupA st.indexes t = none)
    (h2 : 2 ≤ row.length) :
    (InsertRow hash st t row).2 = none ∧
    lookupA (InsertRow hash st t row).1.files t = some [encodeLine hash row] ∧
    ∃ idx, lookupA (InsertRow hash st t row).1.indexes t = some idx ∧
      idx.find (row.headD "") = some 0 := by
  have hlines : linesOf st t = [] := by simp [linesOf, hfile]
  have hnot : ¬ (row.length < 2) := by omega
  unfold InsertRow
  rw [if_neg hnot]
  refine ⟨rfl, ?_, ?_⟩
  · show lookupA (insertA st.files t (linesOf st t ++ [encodeLine hash row])) t
      = some [encodeLine hash row]
    rw [lookupA_insertA, if_pos rfl, hlines]
    rfl
  · refine ⟨Index.insert [] (row.headD "") 0, ?_, ?_⟩
    · show lookupA (insertA st.indexes t
        (((lookupA st.indexes t).getD []).insert (row.headD "")
          (fileSize (linesOf st t)))) t
        = some (Index.insert [] (row.headD "") 0)
      rw [lookupA_insertA, if_pos rfl, hidx, hlines]
      rfl
    · rw [Index.find_insert, if_pos rfl]

theorem c9_insert_witness :
    lookupA (DBState.init []).files "t" = none ∧
    lookupA (DBState.init []).indexes "t" = none ∧
    ((InsertRow hash0 (DBState.init []) "t" ["k", "1"]).2 = none ∧
      lookupA (InsertRow hash0 (DBState.init []) "t" ["k", "1"]).1.files "t"
        = some [encodeLine hash0 ["k", "1"]] ∧
      ∃ idx,
        lookupA (InsertRow hash0 (DBState.init []) "t" ["k", "1"]).1.indexes "t"
          = some idx ∧ idx.find (["k", "1"].headD "") = some 0) :=
  ⟨rfl, rfl,
    c9_insert_into_unregistered_table hash0 (DBState.init []) "t" ["k", "1"]
      rfl rfl (by decide)⟩

/-- C10: atomicity of delete under a tombstone-append failure.  The source
looks the row up, builds the tombstone, and only removes the key from the
index after the append succeeds; when the append reports an error the call
returns that error and the whole state — in particular the key's index
entry — is exactly as before. -/
theorem c10_delete_append_failure_atomic (hash : String → String)
    (st : DBState) (t k e : String) (r : List String) (off : Nat)
    (hF : FindByID hash st t k = .ok r) (h2 : 2 ≤ r.length)
    (hoff : (idxOf st t).find k = some off) :
    DeleteRowWith hash st t k (some e)
      = (st, some ("failed to append tombstone: " ++ e)) ∧
    (idxOf (DeleteRowWith hash st t k (some e)).1 t).find k = some off := by
  have h1 : DeleteRowWith hash st t k (some e)
      = (st, some ("failed to append tombstone: " ++ e)) := by
    unfold DeleteRowWith
    simp only [hF]
    rw [if_neg (by omega)]
  exact ⟨h1, by rw [h1]; exact hoff⟩

theorem c10_delete_failure_witness :
    FindByID hash0 stW "t" "k" = .ok ["k", "1", "x", "y"] ∧
    (DeleteRowWith hash0 stW "t" "k" (some "disk full")
      = (stW, some ("failed to append tombstone: " ++ "disk full")) ∧
    (idxOf (DeleteRowWith hash0 stW "t" "k" (some "disk full")).1 "t").find "k"
      = some 0) :=
  ⟨by decide,
    c10_delete_append_failure_atomic hash0 stW "t" "k" "disk full"
      ["k", "1", "x", "y"] 0 (by decide) (by decide) (by decide)⟩

/-- C6: inserting a clean row of at least two fields into a registered table
with N declared columns and immediately looking its key up succeeds and
returns the row truncated to schema width N + 2 (key, active flag, declared
columns), the trailing checksum and any legacy fields discarded. -/
theorem c6_insert_then_lookup_truncates (hash : String → String)
    (st : DBState) (t : String) (row : List String) (m : TableMetadata)
    (hm : lookupA st.tables t = some m) (hcl : CleanRow row)
    (hcs : CleanS (calculateChecksum hash row)) (h2 : 2 ≤ row.length) :
    (InsertRow hash st t row).2 = none ∧
    FindByID hash (InsertRow hash st t row).1 t (row.headD "")
      = .ok (truncRow row (m.columns.length + 2)) := by
  have hnot : ¬ (row.length < 2) := by omega
  have hne : row ≠ [] := by
    intro h
    rw [h] at h2
    simp at h2
  constructor
  · unfold InsertRow
    rw [if_neg hnot]
  · have hst : (InsertRow hash st t row).1 = { st with
        files := insertA st.files t (linesOf st t ++ [encodeLine hash row]),
        indexes := insertA st.indexes t
          (((lookupA st.indexes t).getD []).insert (row.headD "")
            (fileSize (linesOf st t))) } := by
      unfold InsertRow
      rw [if_neg hnot]
      rfl
    rw [hst]
    have hidx2 : lookupA (insertA st.indexes t
        (((lookupA st.indexes t).getD []).insert (row.headD "")
          (fileSize (linesOf st t)))) t
        = some (((lookupA st.indexes t).getD []).insert (row.headD "")
          (fileSize (linesOf st t))) := by
      rw [lookupA_insertA, if_pos rfl]
    have hfind2 : (((lookupA st.indexes t).getD []).insert (row.headD "")
        (fileSize (linesOf st t))).find (row.headD "")
        = some (fileSize (linesOf st t)) := by
      rw [Index.find_insert, if_pos rfl]
    have hfiles2 : lookupA (insertA st.files t
        (linesOf st t ++ [encodeLine hash row])) t
        = some (linesOf st t ++ [encodeLine hash row]) := by
      rw [lookupA_insertA, if_pos rfl]
    have hread : ReadRow hash (some (linesOf st t ++ [encodeLine hash row]))
        (fileSize (linesOf st t)) = .ok row :=
      ReadRow_encodeLine hne hcl hcs (linesOf st t) []
    unfold FindByID
    simp only [hidx2, hfind2, hfiles2, hread, hm]

theorem c6_insert_lookup_witness :
    lookupA (DBState.init [("t", tbl0)]).tables "t" = some tbl0 ∧
    ((InsertRow hash0 (DBState.init [("t", tbl0)]) "t"
        ["k", "1", "x", "y", "legacy"]).2 = none ∧
      FindByID hash0
        (InsertRow hash0 (DBState.init [("t", tbl0)]) "t"
          ["k", "1", "x", "y", "legacy"]).1 "t"
        (["k", "1", "x", "y", "legacy"].headD "")
        = .ok (truncRow ["k", "1", "x", "y", "legacy"]
            (tbl0.columns.length + 2))) :=
  ⟨by decide,
    c6_insert_then_lookup_truncates hash0 (DBState.init [("t", tbl0)]) "t"
      ["k", "1", "x", "y", "legacy"] tbl0 (by decide) (by decide) (by decide)
      (by decide)⟩

/-- C7: after a successful delete of key k, looking k up fails with the
record-not-found error even though the tombstone record — the prior row with
its active flag forced to "0" — is physically present in the log. -/
theorem c7_delete_then_lookup_not_found (hash : String → String)
    (st : DBState) (t k : String) (hdel : (DeleteRow hash st t k).2 = none) :
    FindByID hash (DeleteRow hash st t k).1 t k
      = .error ("record with id " ++ k ++ " not found in table " ++ t) ∧
    ∃ r, FindByID hash st t k = .ok r ∧
      encodeLine hash (r.set 1 "0") ∈ linesOf (DeleteRow hash st t k).1 t := by
  cases hF : FindByID hash st t k with
  | error e =>
    exfalso
    unfold DeleteRow DeleteRowWith at hdel
    simp only [hF] at hdel
    exact Option.noConfusion hdel
  | ok r =>
    unfold DeleteRow DeleteRowWith at hdel
    simp only [hF] at hdel
    by_cases hr2 : r.length < 2
    · rw [if_pos hr2] at hdel
      exact absurd hdel (by simp)
    · obtain ⟨index, off, hidx, hfind⟩ := FindByID_ok_shape hF
      have hst : (DeleteRow hash st t k).1 = { st with
          files := insertA st.files t
            (linesOf st t ++ [encodeLine hash (r.set 1 "0")]),
          indexes := insertA st.indexes t (index.erase k) } := by
        unfold DeleteRow DeleteRowWith
        simp only [hF]
        rw [if_neg hr2, hidx]
        rfl
      constructor
      · rw [hst]
        have h1 : lookupA (insertA st.indexes t (index.erase k)) t
            = some (index.erase k) := by
          rw [lookupA_insertA, if_pos rfl]
        have h2 : (index.erase k).find k = none := by
          rw [Index.find_erase, if_pos rfl]
        unfold FindByID
        simp only [h1, h2]
      · refine ⟨r, rfl, ?_⟩
        rw [hst]
        have hl : linesOf { st with
            files := insertA st.files t
              (linesOf st t ++ [encodeLine hash (r.set 1 "0")]),
            indexes := insertA st.indexes t (index.erase k) } t
            = linesOf st t ++ [encodeLine hash (r.set 1 "0")] := by
          simp [linesOf, lookupA_insertA]
        rw [hl]
        simp

theorem c7_delete_lookup_witness :
    (DeleteRow hash0 stW "t" "k").2 = none ∧
    (FindByID hash0 (DeleteRow hash0 stW "t" "k").1 "t" "k"
      = .error ("record with id " ++ "k" ++ " not found in table " ++ "t") ∧
    ∃ r, FindByID hash0 stW "t" "k" = .ok r ∧
      encodeLine hash0 (r.set 1 "0") ∈ linesOf (DeleteRow hash0 stW "t" "k").1 "t") :=
  ⟨by decide, c7_delete_then_lookup_not_found hash0 stW "t" "k" (by decide)⟩

/-- Rows a completed scan loop returns, record by record: each is the read-back
row at the record's offset, schema-truncated when a width is known. -/
theorem readAllRows_ok (hash : String → String) (file : Option FileLines)
    (w : Nat) :
    ∀ (recs : List (String × Nat)) (rows : List (List String)),
    readAllRows hash file w recs = .ok rows →
    List.Forall₂ (fun (rec : String × Nat) (row : List String) =>
      ∃ raw, ReadRow hash file rec.2 = .ok raw ∧
        row = if 0 < w ∧ w < raw.length then raw.take w else raw) recs rows := by
  intro recs
  induction recs with
  | nil =>
    intro rows h
    have hr : ([] : List (List String)) = rows := by
      simpa [readAllRows] using h
    rw [← hr]
    exact List.Forall₂.nil
  | cons rec rest ih =>
    intro rows h
    simp only [readAllRows] at h
    cases hr : ReadRow hash file rec.2 with
    | error e =>
      simp only [hr] at h
      cases h
    | ok raw =>
      simp only [hr] at h
      cases hrest : readAllRows hash file w rest with
      | error e =>
        simp only [hrest] at h
        cases h
      | ok rows2 =>
        simp only [hrest] at h
        have hrows : (if 0 < w ∧ w < raw.length then raw.take w else raw) :: rows2
            = rows := by
          simpa using h
        rw [← hrows]
        exact List.Forall₂.cons ⟨raw, hr, rfl⟩ (ih rows2 hrest)

/-- A single failing read anywhere among the records aborts the whole loop. -/
theorem readAllRows_fails (hash : String → String) (file : Option FileLines)
    (w : Nat) :
    ∀ (recs : List (String × Nat)) (rec : String × Nat), rec ∈ recs →
    (∃ e, ReadRow hash file rec.2 = .error e) →
    ∃ e2, readAllRows hash file w recs = .error e2 := by
  intro recs
  induction recs with
  | nil =>
    intro rec hmem _
    cases hmem
  | cons a rest ih =>
    intro rec hmem hfail
    obtain ⟨e, he⟩ := hfail
    rcases List.mem_cons.mp hmem with rfl | hmem2
    · exact ⟨"failed to read row for id " ++ rec.1 ++ ": " ++ e,
        by simp only [readAllRows, he]⟩
    · cases hr : ReadRow hash file a.2 with
      | error e1 =>
        exact ⟨"failed to read row for id " ++ a.1 ++ ": " ++ e1,
          by simp only [readAllRows, hr]⟩
      | ok raw =>
        obtain ⟨e2, he2⟩ := ih rec hmem2 ⟨e, he⟩
        exact ⟨e2, by simp only [readAllRows, hr, he2]⟩

instance : IsTotal (String × Nat) (fun a b => a.2 ≤ b.2) :=
  ⟨fun a b => Nat.le_total a.2 b.2⟩

instance : IsTrans (String × Nat) (fun a b => a.2 ≤ b.2) :=
  ⟨fun _ _ _ hab hbc => Nat.le_trans hab hbc⟩

/-- C8: when a scan succeeds, the returned rows correspond one-to-one to the
index's (key, offset) records rearranged in nondecreasing offset order (the
sort key is the offset, not the key), each row read at its record's offset and
schema-truncated; and when any single indexed record fails to read, the whole
scan fails with an error and returns no rows. -/
theorem c8_selectAll_offset_order_and_abort (hash : String → String)
    (st : DBState) (t : String) :
    (∀ rows, SelectAll hash st t = .ok rows →
      ∃ index recs, lookupA st.indexes t = some index ∧
        recs.Perm index ∧
        recs.Pairwise (fun a b => a.2 ≤ b.2) ∧
        List.Forall₂ (fun (rec : String × Nat) (row : List String) =>
          ∃ raw, ReadRow hash (lookupA st.files t) rec.2 = .ok raw ∧
            row = if 0 < schemaWidth st t ∧ schemaWidth st t < raw.length
              then raw.take (schemaWidth st t) else raw) recs rows) ∧
    (∀ index rec, lookupA st.indexes t = some index → rec ∈ index →
      (∃ e, ReadRow hash (lookupA st.files t) rec.2 = .error e) →
      ∃ e2, SelectAll hash st t = .error e2) := by
  constructor
  · intro rows hok
    unfold SelectAll at hok
    cases hidx : lookupA st.indexes t with
    | none =>
      simp only [hidx] at hok
      cases hok
    | some index =>
      simp only [hidx] at hok
      exact ⟨index, List.insertionSort (fun a b => a.2 ≤ b.2) index, rfl,
        List.perm_insertionSort _ _, List.sorted_insertionSort _ _,
        readAllRows_ok hash (lookupA st.files t) (schemaWidth st t) _ rows hok⟩
  · intro index rec hidx hmem hfail
    obtain ⟨e2, he2⟩ := readAllRows_fails hash (lookupA st.files t)
      (schemaWidth st t) (List.insertionSort (fun a b => a.2 ≤ b.2) index) rec
      ((List.perm_insertionSort _ _).mem_iff.mpr hmem) hfail
    refine ⟨e2, ?_⟩
    unfold SelectAll
    simp only [hidx, he2]

/-- A completed update pass keeps the row's length and its active-flag slot
(no declared column ever resolves to row position 1). -/
theorem applyUpdates_len_flag (cols : List String) (tn : String) :
    ∀ (us : List (String × String)) (row w : List String),
    applyUpdates cols tn row us = .ok w →
    w.length = row.length ∧ w[1]? = row[1]? := by
  intro us
  induction us with
  | nil =>
    intro row w h
    have hw : row = w := by simpa [applyUpdates] using h
    rw [← hw]
    exact ⟨rfl, rfl⟩
  | cons p rest ih =>
    intro row w h
    simp only [applyUpdates] at h
    cases hf : findColIndex cols p.1 with
    | none =>
      simp only [hf] at h
      cases h
    | some ci =>
      simp only [hf] at h
      by_cases hlen : row.length ≤ ci
      · rw [if_pos hlen] at h
        cases h
      · rw [if_neg hlen] at h
        have hci1 : ci ≠ 1 := by
          rcases findColIndexFrom_shape p.1 cols 0 ci hf with h1 | h1 <;> omega
        obtain ⟨hw2, hw4⟩ := ih (row.set ci p.2) w h
        exact ⟨by rw [hw2, List.length_set],
          by rw [hw4, List.getElem?_set_ne hci1]⟩

/-- In-memory state holding table t (two declared columns) with only the row
k,1 — a stored row two fields wide against a schema width of three, which the
unvalidating insert happily admits. -/
def stC5 : DBState :=
  (InsertRow hash0 (DBState.init [("t", tbl0)]) "t" ["k", "1"]).1

/-- C5 counterexample: with two declared columns (schema width 3) and the
stored row k,1 of only two fields, the claim says update succeeds by padding;
the code instead fails with a data-corruption error and changes nothing. -/
theorem c5_short_row_update_fails_counterexample :
    (UpdateRow hash0 stC5 "t" "k" []).2
      = some "data corruption: row shorter than schema (len=2, expected=3)" ∧
    (UpdateRow hash0 stC5 "t" "k" []).1 = stC5 := by
  constructor
  · decide
  · decide

/-- C5 (amended): update reads the current row; when the stored row is at
least N+1 fields wide it truncates to exactly N+1 fields (key, active flag,
columns, no checksum), forces the active flag to "1", applies the updates and
appends the result; when the stored row is SHORTER than N+1 fields the update
fails with a data-corruption error — it does not pad. -/
theorem c5_update_truncates_and_forces_flag (hash : String → String)
    (st : DBState) (t id : String) (us : List (String × String))
    (m : TableMetadata) (hm : lookupA st.tables t = some m)
    (r : List String) (hF : FindByID hash st t id = .ok r) :
    (r.length < m.columns.length + 1 →
      UpdateRow hash st t id us = (st,
        some ("data corruption: row shorter than schema (len=" ++
          toString r.length ++ ", expected=" ++
          toString (m.columns.length + 1) ++ ")"))) ∧
    (m.columns.length + 1 ≤ r.length → 2 ≤ m.columns.length + 1 →
      ∀ w, applyUpdates m.columns t ((r.take (m.columns.length + 1)).set 1 "1") us
          = .ok w →
        (UpdateRow hash st t id us).2 = none ∧
        linesOf (UpdateRow hash st t id us).1 t
          = linesOf st t ++ [encodeLine hash w] ∧
        w.length = m.columns.length + 1 ∧ w[1]? = some "1") := by
  constructor
  · intro hshort
    unfold UpdateRow
    simp only [hF, hm]
    rw [if_pos hshort]
  · intro hlong h2 w hA
    have hup : (UpdateRow hash st t id us) = ({ st with
        files := insertA st.files t (linesOf st t ++ [encodeLine hash w]),
        indexes := match lookupA st.indexes t with
          | some idx => insertA st.indexes t
              (idx.insert id (fileSize (linesOf st t)))
          | none => st.indexes }, none) := by
      unfold UpdateRow
      simp only [hF, hm]
      rw [if_neg (by omega), if_neg (by omega)]
      simp only [hA]
      rfl
    have hlen_take : (r.take (m.columns.length + 1)).length
        = m.columns.length + 1 := by
      rw [List.length_take]
      omega
    obtain ⟨hl, hf1⟩ := applyUpdates_len_flag m.columns t us _ w hA
    have hwlen : w.length = m.columns.length + 1 := by
      rw [hl, List.length_set, hlen_take]
    have hwflag : w[1]? = some "1" := by
      rw [hf1]
      exact List.getElem?_set_self (by rw [hlen_take]; omega)
    refine ⟨by rw [hup], ?_, hwlen, hwflag⟩
    rw [hup]
    simp [linesOf, lookupA_insertA]

theorem c5_update_witness :
    (UpdateRow hash0 stW "t" "k" []).2 = none ∧
    linesOf (UpdateRow hash0 stW "t" "k" []).1 "t"
      = linesOf stW "t" ++ [encodeLine hash0 ["k", "1", "x"]] ∧
    (["k", "1", "x"] : List String).length = tbl0.columns.length + 1 ∧
    (["k", "1", "x"] : List String)[1]? = some "1" :=
  (c5_update_truncates_and_forces_flag hash0 stW "t" "k" [] tbl0 (by decide)
    ["k", "1", "x", "y"] (by decide)).2 (by decide) (by decide) ["k", "1", "x"]
    (by decide)

/-- The concrete stand-in hash is clean: its output is always "h". -/
theorem cleanHash_hash0 : CleanHash hash0 :=
  fun _ => (by decide : CleanS "h")

/-- C1 counterexample: `InsertRow` indexes the key of any accepted row
unconditionally, while replay indexes only rows whose active flag is "1".
Inserting the two-field row k,0 therefore leaves a live index holding k while
rebuilding from the log deletes k — the two indexes differ. -/
theorem c1_flag_zero_insert_counterexample :
    (idxOf (InsertRow hash0 (DBState.init []) "t" ["k", "0"]).1 "t").find "k"
      = some 0 ∧
    (idxOf (RebuildIndex
      (InsertRow hash0 (DBState.init []) "t" ["k", "0"]).1 "t") "t").find "k"
      = none := by
  constructor
  · decide
  · decide

/-- C1 (amended): for every table and every sequence of insert, update and
delete operations in which inserted rows carry active flag "1" and
delimiter-free, newline-free fields, and updates write such values and never
address the first declared column (which would rename the stored key field),
rebuilding the Index by replaying the full log from byte 0 yields exactly the
Index built incrementally during the live run. -/
theorem c1_rebuild_equals_live_index (hash : String → String)
    (hh : CleanHash hash) (tbls : List (String × TableMetadata))
    (ops : List Op) (hwf : ∀ op ∈ ops, WFOp tbls op) (t : String) :
    idxOf (RebuildIndex (runOps hash (DBState.init tbls) ops) t) t
      = idxOf (runOps hash (DBState.init tbls) ops) t := by
  obtain ⟨hinv, -⟩ := RepInv_runOps hh ops (DBState.init tbls)
    (RepInv_init hash tbls) hwf
  have h2 := (hinv t).2
  unfold RebuildIndex
  cases hf : lookupA (runOps hash (DBState.init tbls) ops).files t with
  | none =>
    have hl : linesOf (runOps hash (DBState.init tbls) ops) t = [] := by
      simp [linesOf, hf]
    rw [hl] at h2
    show idxOf { runOps hash (DBState.init tbls) ops with
      indexes := insertA (runOps hash (DBState.init tbls) ops).indexes t [] } t
      = idxOf (runOps hash (DBState.init tbls) ops) t
    rw [h2]
    simp [idxOf, lookupA_insertA, replayLines]
  | some lines =>
    have hl : linesOf (runOps hash (DBState.init tbls) ops) t = lines := by
      simp [linesOf, hf]
    rw [hl] at h2
    show idxOf { runOps hash (DBState.init tbls) ops with
      indexes := insertA
        (insertA (runOps hash (DBState.init tbls) ops).indexes t []) t
        (replayLines [] 0 lines) } t
      = idxOf (runOps hash (DBState.init tbls) ops) t
    rw [h2]
    simp [idxOf, lookupA_insertA]

/-- A well-formed operation sequence exercising insert, tombstone delete and
key resurrection on table t. -/
def opsW1 : List Op :=
  [.insert "t" ["k", "1", "a"], .delete "t" "k", .insert "t" ["k", "1", "b"],
   .insert "t" ["j", "1", "c"]]

theorem c1_rebuild_witness :
    (∀ op ∈ opsW1, WFOp [("t", tbl0)] op) ∧
    idxOf (RebuildIndex (runOps hash0 (DBState.init [("t", tbl0)]) opsW1) "t")
      "t" = idxOf (runOps hash0 (DBState.init [("t", tbl0)]) opsW1) "t" :=
  ⟨by decide,
    c1_rebuild_equals_live_index hash0 cleanHash_hash0 [("t", tbl0)]
      opsW1 (by decide) "t"⟩

/-- C2 counterexample: after inserting the two-field row k,0, the live index
maps k to offset 0, yet the most recently written record with first field k —
the record at offset 0 itself — carries active flag "0", not "1". -/
theorem c2_stale_flag_counterexample :
    (idxOf (InsertRow hash0 (DBState.init []) "t" ["k", "0"]).1 "t").find "k"
      = some 0 ∧
    lastRecordFor "k" 0
      (linesOf (InsertRow hash0 (DBState.init []) "t" ["k", "0"]).1 "t")
      = some (0, "k|0|h") ∧
    (splitPipe "k|0|h")[1]? = some "0" := by
  refine ⟨by decide, by decide, by decide⟩

/-- C2 (amended): in every state reached from a fresh database by insert,
update and delete operations whose inserted rows carry active flag "1" and
clean fields, and whose updates write clean values and never address the
first declared column, every key in a table's Index maps to the byte offset
of the most recently written log record whose first field equals the key, and
that record's active flag is the literal "1". -/
theorem c2_index_points_at_latest_active (hash : String → String)
    (hh : CleanHash hash) (tbls : List (String × TableMetadata))
    (ops : List Op) (hwf : ∀ op ∈ ops, WFOp tbls op) (t k : String)
    (off : Nat)
    (hfind : (idxOf (runOps hash (DBState.init tbls) ops) t).find k
      = some off) :
    ∃ l, lastRecordFor k 0 (linesOf (runOps hash (DBState.init tbls) ops) t)
        = some (off, l) ∧ (splitPipe l)[1]? = some "1" := by
  obtain ⟨hinv, -⟩ := RepInv_runOps hh ops (DBState.init tbls)
    (RepInv_init hash tbls) hwf
  rw [(hinv t).2, find_replayLines hh k _ (hinv t).1 [] 0] at hfind
  cases hrec : lastRecordFor k 0
      (linesOf (runOps hash (DBState.init tbls) ops) t) with
  | none =>
    rw [hrec] at hfind
    exact absurd hfind (by simp [Index.find])
  | some p =>
    rw [hrec] at hfind
    obtain ⟨o1, l1⟩ := p
    by_cases hflag : (splitPipe l1)[1]? = some "1"
    · have h3 : (if (splitPipe l1)[1]? = some "1" then some o1 else none)
        = some off := hfind
      rw [if_pos hflag] at h3
      have ho : o1 = off := by simpa using h3
      subst ho
      exact ⟨l1, rfl, hflag⟩
    · have h3 : (if (splitPipe l1)[1]? = some "1" then some o1 else none)
        = some off := hfind
      rw [if_neg hflag] at h3
      cases h3

/-- Re-inserting key k repoints the index at the second record (offset 8,
just past the 8-byte first line). -/
def opsW2 : List Op :=
  [.insert "t" ["k", "1", "a"], .insert "t" ["k", "1", "b"]]

theorem c2_latest_active_witness :
    (∀ op ∈ opsW2, WFOp [("t", tbl0)] op) ∧
    (idxOf (runOps hash0 (DBState.init [("t", tbl0)]) opsW2) "t").find "k"
      = some 8 ∧
    ∃ l, lastRecordFor "k" 0
        (linesOf (runOps hash0 (DBState.init [("t", tbl0)]) opsW2) "t")
        = some (8, l) ∧ (splitPipe l)[1]? = some "1" :=
  ⟨by decide, by decide,
    c2_index_points_at_latest_active hash0 cleanHash_hash0 [("t", tbl0)]
      opsW2 (by decide) "t" "k" 8 (by decide)⟩
